import Mathlib

/-!
# Verification of the codeownerreport ownership diff resolution engine

Shallow embedding of `src/main.go` (package `main` of aksdb/codeownerreport).

The program's own code (`main.go`) is a linear pipeline of fallible steps that
finishes by aggregating changed paths per owner and printing a report.  The
pipeline is embedded as the function `run` over an environment `Env` that
records the outcome of every collaborator call (repository open, branch
lookups, merge base, tree diff, ...).  The aggregation and printing code
(`main.go` lines 105-141) is embedded directly: Go maps are modelled as
association lists in insertion order, and where the claims depend on Go's
unspecified map iteration order, the aggregation step is applied to
permutations of those lists.

The CODEOWNERS matcher lives in the third-party library
`github.com/hmarr/codeowners`, whose code is not part of this repository;
following the specification, it is modelled from the spec's description of
gitignore-style matching (see the `Modelled from the spec:` doc comments).
-/

set_option autoImplicit false

namespace CodeownerReport

/-! ## Gitignore-style pattern matching (modelled from the spec) -/

/-- All suffixes of a list, including the list itself and `[]`. -/
def tailsL {α : Type} : List α → List (List α)
  | [] => [[]]
  | x :: xs => (x :: xs) :: tailsL xs

/-- Split a character list into path segments at `/` characters
(the model of splitting a path string on `/`). -/
def splitOnSlash : List Char → List (List Char)
  | [] => [[]]
  | c :: cs =>
      if c = '/' then [] :: splitOnSlash cs
      else
        match splitOnSlash cs with
        | [] => [[c]]
        | s :: ss => (c :: s) :: ss

/-- Modelled from the spec: matching of a single glob segment against a single
path segment, where `*` "matches within a path segment" (any run of
characters not crossing a `/`) and every other character matches itself. -/
def segCharsMatch : List Char → List Char → Bool
  | [], cs => cs.isEmpty
  | '*' :: ps, cs => (tailsL cs).any (fun cs' => segCharsMatch ps cs')
  | p :: ps, cs =>
      match cs with
      | [] => false
      | c :: cs' => p == c && segCharsMatch ps cs'

/-- A parsed pattern segment: either the cross-segment wildcard `**`
or an ordinary glob segment. -/
inductive PatSeg where
  | dstar
  | glob (s : List Char)
deriving DecidableEq

/-- Modelled from the spec: matching a list of pattern segments against the
segments of a path.  `**` "matches across segments" (consumes any number of
path segments); a fully consumed pattern matches the path itself and
everything below it, except that a directory pattern (trailing `/`,
`dirOnly = true`) requires at least one further path segment. -/
def matchSegs (dirOnly : Bool) : List PatSeg → List (List Char) → Bool
  | [], segs => !dirOnly || !segs.isEmpty
  | PatSeg.dstar :: ps, segs => (tailsL segs).any (fun t => matchSegs dirOnly ps t)
  | PatSeg.glob g :: ps, segs =>
      match segs with
      | [] => false
      | s :: rest => segCharsMatch g s && matchSegs dirOnly ps rest

/-- Modelled from the spec: decompose a pattern into (anchored, dirOnly,
segments): "a leading `/` anchors to the root, a trailing `/` restricts to
directories". -/
def parsePat (pat : String) : Bool × Bool × List PatSeg :=
  let cs := pat.data
  let anchored : Bool := match cs with
    | '/' :: _ => true
    | _ => false
  let cs := if anchored then cs.drop 1 else cs
  let dirOnly : Bool := match cs.getLast? with
    | some '/' => true
    | _ => false
  let cs := if dirOnly then cs.dropLast else cs
  (anchored, dirOnly,
    (splitOnSlash cs).map (fun s => if s = ['*', '*'] then PatSeg.dstar else PatSeg.glob s))

/-- Modelled from the spec: does the gitignore-style pattern `pat` match the
path `path`?  An anchored pattern (leading `/`) must match starting at the
root; "unanchored patterns match at any depth", i.e. starting at any path
segment boundary. -/
def patMatch (pat path : String) : Bool :=
  let (anchored, dirOnly, ps) := parsePat pat
  let segs := splitOnSlash path.data
  if anchored then matchSegs dirOnly ps segs
  else (tailsL segs).any (fun t => matchSegs dirOnly ps t)

/-! ## Rules and ruleset matching (modelled from the spec) -/

/-- A CODEOWNERS rule: a pattern together with its ordered owner list
(spec §3, "Rule"). -/
structure Rule where
  pattern : String
  owners : List String
deriving DecidableEq

/-- Modelled from the spec: `Ruleset.Match` of the codeowners library,
"matching evaluates rules in their declared order and keeps the LAST rule
whose pattern matches the path"; `none` is the explicit "no rule matched"
outcome (the library's match failure seen by `main.go` line 118). -/
def rulesetMatch (rs : List Rule) (path : String) : Option Rule :=
  rs.foldl (fun acc r => if patMatch r.pattern path then some r else acc) none

/-- The owner strings `main.go` lines 117-126 store for a file: the owners of
the last matching rule, or `[]` when matching failed (the `continue` branch
leaves the map entry `nil`). -/
def matchedOwners (rs : List Rule) (path : String) : List String :=
  match rulesetMatch rs path with
  | none => []
  | some r => r.owners

/-! ## Changed-path extraction (`main.go` lines 105-115)

A `FilePatch` is the pair of optional old/new files of one diff entry
(`fp.Files()`); `changedPaths` is the key set of the Go map `fileOwners`
after the first loop, as a duplicate-free list in insertion order. -/

/-- One file patch of the diff: `from` and `to` file paths
(`nil` modelled as `none`). -/
structure FilePatch where
  fromFile : Option String
  toFile : Option String
deriving DecidableEq

/-- Insertion of a key into a Go map's key set, modelled on lists:
a new key goes to the end, an existing key leaves the set unchanged. -/
def insertKey (ks : List String) (k : String) : List String :=
  if k ∈ ks then ks else ks ++ [k]

/-- The effect of one iteration of the loop at `main.go` lines 107-115:
record `from.Path()` (if any) and `to.Path()` (if any) as map keys. -/
def cpStep (ks : List String) (fp : FilePatch) : List String :=
  let ks1 := match fp.fromFile with
    | some p => insertKey ks p
    | none => ks
  match fp.toFile with
  | some p => insertKey ks1 p
  | none => ks1

/-- The set of changed paths collected from all file patches
(`main.go` lines 105-115). -/
def changedPaths (patches : List FilePatch) : List String :=
  patches.foldl cpStep []

/-! ## Ownership aggregation and report printing (`main.go` lines 117-141) -/

/-- The `fileOwners` map after the matching loop (`main.go` lines 117-126),
in key insertion order: each changed path paired with its matched owners. -/
def fileOwnersMap (rs : List Rule) (files : List String) : List (String × List String) :=
  files.map (fun f => (f, matchedOwners rs f))

/-- `ownerFiles[owner] = append(ownerFiles[owner], file)` on the
association-list model of a Go map: append to the entry of `o`,
or create a new entry at the end. -/
def addFile : List (String × List String) → String → String → List (String × List String)
  | [], o, f => [(o, [f])]
  | (o', fs) :: rest, o, f =>
      if o' = o then (o', fs ++ [f]) :: rest
      else (o', fs) :: addFile rest o f

/-- One iteration of the inversion loop (`main.go` lines 129-133) for a
single `fileOwners` entry: append the file to every one of its owners. -/
def entryStep (acc : List (String × List String)) (e : String × List String) :
    List (String × List String) :=
  e.2.foldl (fun a o => addFile a o e.1) acc

/-- The `ownerFiles` map built by the inversion loop (`main.go` lines
128-133) from the `fileOwners` entries enumerated in the given order. -/
def ownerFilesMap (fileOwners : List (String × List String)) :
    List (String × List String) :=
  fileOwners.foldl entryStep []

/-- `lo.Uniq`: duplicates removed, first occurrences kept in order
(as `main.go` line 135 applies to each owner's file list). -/
def uniq (xs : List String) : List String :=
  xs.foldl (fun acc x => if x ∈ acc then acc else acc ++ [x]) []

/-- Go map lookup in the association-list model; an absent key yields
`nil`, i.e. `[]`. -/
def lookupD (m : List (String × List String)) (k : String) : List String :=
  match m with
  | [] => []
  | (k', v) :: rest => if k' = k then v else lookupD rest k

/-- The printed report (`main.go` lines 134-141) as a list of output lines,
for the `ownerFiles` entries enumerated in the given order: per owner a blank
line, the owner, then each file of `lo.Uniq(ownerFiles[owner])` indented by
two spaces. -/
def printReport (ownerFiles : List (String × List String)) : List String :=
  ownerFiles.foldl
    (fun out e => out ++ [""] ++ [e.1] ++ (uniq e.2).map (fun f => "  " ++ f)) []

/-! ## The whole pipeline (`func main`, `main.go` lines 14-142)

Every fallible collaborator call of `main` is a field of `Env` holding the
outcome the environment gives it; `run` mirrors `main`'s control flow: any
error exits with status 1 before printing anything.  `RunResult` records the
exit code, the printed report lines, and — mirroring the "Identified base
commit" log line 79 — which merge-base commit was selected, if any.
The deterministic representative enumeration order (key insertion order) is
used for the two Go maps; order-(in)dependence is treated separately where a
claim depends on it. -/

/-- Outcome of `repo.Branch(name)`: the branch, the library's
branch-not-found error (`git.ErrBranchNotFound`), or any other error. -/
inductive GitErr where
  | branchNotFound
  | other (code : Nat)
deriving DecidableEq

/-- The environment of one invocation: the result of every collaborator
call `main` makes, in program order. -/
structure Env where
  ruleset : Except Nat (List Rule)
  repoOpen : Except Nat Unit
  headRef : Except Nat Bool
  branchMain : Except GitErr Unit
  branchMaster : Except GitErr Unit
  mainRef : Except Nat Unit
  mainCommit : Except Nat Unit
  currentCommit : Except Nat Unit
  mergeBase : Except Nat (List Nat)
  baseTree : Except Nat Unit
  currentTree : Except Nat Unit
  diff : Except Nat Unit
  patch : Except Nat (List FilePatch)

/-- Observable outcome of a run: process exit code, printed report lines,
and the merge-base commit selected at `main.go` line 77 (none if the run
died earlier). -/
structure RunResult where
  exitCode : Nat
  report : List String
  selectedBase : Option Nat
deriving DecidableEq

/-- A fatal exit before merge-base selection: `os.Exit(1)`,
nothing printed. -/
def fatal : RunResult := ⟨1, [], none⟩

/-- `main.go` lines 38-45: try `repo.Branch("main")`; exactly when that
fails with `git.ErrBranchNotFound`, the result is replaced by
`repo.Branch("master")`. -/
def selectMainline (mainRes masterRes : Except GitErr Unit) : Except GitErr Unit :=
  match mainRes with
  | .error GitErr.branchNotFound => masterRes
  | r => r

/-- The pipeline of `func main` (`main.go` lines 14-142). -/
def run (env : Env) : RunResult :=
  match env.ruleset with
  | .error _ => fatal
  | .ok rs =>
    match env.repoOpen with
    | .error _ => fatal
    | .ok _ =>
      match env.headRef with
      | .error _ => fatal
      | .ok isBranch =>
        if !isBranch then fatal
        else
          match selectMainline env.branchMain env.branchMaster with
          | .error _ => fatal
          | .ok _ =>
            match env.mainRef with
            | .error _ => fatal
            | .ok _ =>
              match env.mainCommit with
              | .error _ => fatal
              | .ok _ =>
                match env.currentCommit with
                | .error _ => fatal
                | .ok _ =>
                  match env.mergeBase with
                  | .error _ => fatal
                  | .ok bases =>
                    match bases with
                    | [] => fatal
                    | base :: _ =>
                      match env.baseTree with
                      | .error _ => ⟨1, [], some base⟩
                      | .ok _ =>
                        match env.currentTree with
                        | .error _ => ⟨1, [], some base⟩
                        | .ok _ =>
                          match env.diff with
                          | .error _ => ⟨1, [], some base⟩
                          | .ok _ =>
                            match env.patch with
                            | .error _ => ⟨1, [], some base⟩
                            | .ok patches =>
                              ⟨0,
                                printReport (ownerFilesMap
                                  (fileOwnersMap rs (changedPaths patches))),
                                some base⟩

/-! ## Lemmas about `uniq` -/

theorem mem_uniqFold (xs : List String) :
    ∀ (acc : List String) (y : String),
      y ∈ xs.foldl (fun acc x => if x ∈ acc then acc else acc ++ [x]) acc ↔
        y ∈ acc ∨ y ∈ xs := by
  induction xs with
  | nil => simp
  | cons x xs ih =>
      intro acc y
      simp only [List.foldl_cons]
      rw [ih]
      by_cases h : x ∈ acc
      · simp only [h, if_true, List.mem_cons]
        constructor
        · rintro (hy | hy)
          · exact Or.inl hy
          · exact Or.inr (Or.inr hy)
        · rintro (hy | rfl | hy)
          · exact Or.inl hy
          · exact Or.inl h
          · exact Or.inr hy
      · simp [h, List.mem_append, List.mem_cons, or_assoc]

theorem nodup_uniqFold (xs : List String) :
    ∀ acc : List String, acc.Nodup →
      (xs.foldl (fun acc x => if x ∈ acc then acc else acc ++ [x]) acc).Nodup := by
  induction xs with
  | nil => simpa using fun acc h => h
  | cons x xs ih =>
      intro acc hacc
      simp only [List.foldl_cons]
      apply ih
      by_cases h : x ∈ acc
      · simpa [h] using hacc
      · simp only [h, if_false]
        simp [List.nodup_append, hacc, h]

theorem mem_uniq (xs : List String) (y : String) : y ∈ uniq xs ↔ y ∈ xs := by
  unfold uniq
  rw [mem_uniqFold]
  simp

theorem nodup_uniq (xs : List String) : (uniq xs).Nodup :=
  nodup_uniqFold xs [] List.nodup_nil

/-! ## Lemmas about the changed-path set -/

theorem mem_insertKey (ks : List String) (k y : String) :
    y ∈ insertKey ks k ↔ y ∈ ks ∨ y = k := by
  unfold insertKey
  by_cases h : k ∈ ks
  · simp only [h, if_true]
    constructor
    · exact Or.inl
    · rintro (hy | rfl)
      · exact hy
      · exact h
  · simp [h, List.mem_append]

theorem nodup_insertKey (ks : List String) (k : String) (h : ks.Nodup) :
    (insertKey ks k).Nodup := by
  unfold insertKey
  by_cases hk : k ∈ ks <;> simp [hk, List.nodup_append, h]

theorem mem_cpStep (ks : List String) (fp : FilePatch) (y : String) :
    y ∈ cpStep ks fp ↔ y ∈ ks ∨ fp.fromFile = some y ∨ fp.toFile = some y := by
  obtain ⟨fromF, toF⟩ := fp
  cases fromF <;> cases toF <;>
    simp [cpStep, mem_insertKey, Option.some.injEq, eq_comm] <;> tauto

theorem nodup_cpStep (ks : List String) (fp : FilePatch) (h : ks.Nodup) :
    (cpStep ks fp).Nodup := by
  obtain ⟨fromF, toF⟩ := fp
  cases fromF <;> cases toF <;> simp [cpStep] <;>
    first
    | exact h
    | exact nodup_insertKey _ _ h
    | exact nodup_insertKey _ _ (nodup_insertKey _ _ h)

theorem mem_cpFold (l : List FilePatch) :
    ∀ (acc : List String) (y : String),
      y ∈ l.foldl cpStep acc ↔
        y ∈ acc ∨ ∃ fp ∈ l, fp.fromFile = some y ∨ fp.toFile = some y := by
  induction l with
  | nil => simp
  | cons fp l ih =>
      intro acc y
      simp only [List.foldl_cons]
      rw [ih, mem_cpStep]
      simp only [List.mem_cons]
      constructor
      · rintro ((h | h) | ⟨fq, hfq, h⟩)
        · exact Or.inl h
        · exact Or.inr ⟨fp, Or.inl rfl, h⟩
        · exact Or.inr ⟨fq, Or.inr hfq, h⟩
      · rintro (h | ⟨fq, (rfl | hfq), h⟩)
        · exact Or.inl (Or.inl h)
        · exact Or.inl (Or.inr h)
        · exact Or.inr ⟨fq, hfq, h⟩

theorem nodup_cpFold (l : List FilePatch) :
    ∀ acc : List String, acc.Nodup → (l.foldl cpStep acc).Nodup := by
  induction l with
  | nil => simpa using fun acc h => h
  | cons fp l ih =>
      intro acc hacc
      simp only [List.foldl_cons]
      exact ih _ (nodup_cpStep _ _ hacc)

theorem mem_changedPaths (patches : List FilePatch) (y : String) :
    y ∈ changedPaths patches ↔
      ∃ fp ∈ patches, fp.fromFile = some y ∨ fp.toFile = some y := by
  unfold changedPaths
  rw [mem_cpFold]
  simp

theorem nodup_changedPaths (patches : List FilePatch) :
    (changedPaths patches).Nodup :=
  nodup_cpFold patches [] List.nodup_nil

/-! ## Lemmas about the owner→files map -/

theorem lookupD_addFile (m : List (String × List String)) (o f k : String) :
    lookupD (addFile m o f) k = if k = o then lookupD m k ++ [f] else lookupD m k := by
  induction m with
  | nil =>
      by_cases h : k = o
      · subst h
        simp [addFile, lookupD]
      · have h' : ¬ o = k := fun hh => h hh.symm
        simp [addFile, lookupD, h, h']
  | cons e rest ih =>
      obtain ⟨o', fs⟩ := e
      by_cases h1 : o' = o
      · by_cases h2 : o' = k
        · subst h1; subst h2
          simp [addFile, lookupD]
        · simp only [addFile, if_pos h1, lookupD, if_neg h2]
          rw [if_neg (fun hh : k = o => h2 (h1.trans hh.symm))]
      · by_cases h2 : o' = k
        · subst h2
          simp only [addFile, if_neg h1, lookupD, if_pos rfl]
          simp
        · simp only [addFile, if_neg h1, lookupD, if_neg h2, ih]

theorem mem_keys_addFile (m : List (String × List String)) (o f k : String) :
    k ∈ (addFile m o f).map Prod.fst ↔ k ∈ m.map Prod.fst ∨ k = o := by
  induction m with
  | nil => simp [addFile]
  | cons e rest ih =>
      obtain ⟨o', fs⟩ := e
      by_cases h1 : o' = o
      · simp only [addFile, if_pos h1, List.map_cons, List.mem_cons]
        subst h1
        tauto
      · simp only [addFile, if_neg h1, List.map_cons, List.mem_cons]
        rw [ih]
        tauto

theorem nodup_keys_addFile (m : List (String × List String)) (o f : String)
    (h : (m.map Prod.fst).Nodup) : ((addFile m o f).map Prod.fst).Nodup := by
  induction m with
  | nil => simp [addFile]
  | cons e rest ih =>
      obtain ⟨o', fs⟩ := e
      simp only [List.map_cons, List.nodup_cons] at h
      by_cases h1 : o' = o
      · simp only [addFile, if_pos h1, List.map_cons, List.nodup_cons]
        exact h
      · simp only [addFile, if_neg h1, List.map_cons, List.nodup_cons]
        refine ⟨?_, ih h.2⟩
        rw [mem_keys_addFile]
        rintro (hmem | rfl)
        · exact h.1 hmem
        · exact h1 rfl

theorem mem_lookupD_ownersFold (os : List String) (f : String) :
    ∀ (acc : List (String × List String)) (k x : String),
      x ∈ lookupD (os.foldl (fun a o => addFile a o f) acc) k ↔
        x ∈ lookupD acc k ∨ (k ∈ os ∧ x = f) := by
  induction os with
  | nil => simp
  | cons o os ih =>
      intro acc k x
      simp only [List.foldl_cons]
      rw [ih, lookupD_addFile]
      by_cases h : k = o
      · rw [if_pos h]
        subst h
        simp only [List.mem_append, List.mem_singleton, List.mem_cons, true_or,
          true_and, eq_self_iff_true]
        tauto
      · rw [if_neg h]
        simp only [List.mem_cons]
        constructor
        · rintro (hx | ⟨hk, rfl⟩)
          · exact Or.inl hx
          · exact Or.inr ⟨Or.inr hk, rfl⟩
        · rintro (hx | ⟨rfl | hk, rfl⟩)
          · exact Or.inl hx
          · exact absurd rfl h
          · exact Or.inr ⟨hk, rfl⟩

theorem mem_keys_ownersFold (os : List String) (f : String) :
    ∀ (acc : List (String × List String)) (k : String),
      k ∈ (os.foldl (fun a o => addFile a o f) acc).map Prod.fst ↔
        k ∈ acc.map Prod.fst ∨ k ∈ os := by
  induction os with
  | nil => simp
  | cons o os ih =>
      intro acc k
      simp only [List.foldl_cons]
      rw [ih, mem_keys_addFile]
      simp only [List.mem_cons]
      tauto

theorem nodup_keys_ownersFold (os : List String) (f : String) :
    ∀ acc : List (String × List String), (acc.map Prod.fst).Nodup →
      ((os.foldl (fun a o => addFile a o f) acc).map Prod.fst).Nodup := by
  induction os with
  | nil => exact fun acc h => h
  | cons o os ih =>
      intro acc hacc
      simp only [List.foldl_cons]
      exact ih _ (nodup_keys_addFile _ _ _ hacc)

theorem mem_lookupD_outerFold (l : List (String × List String)) :
    ∀ (acc : List (String × List String)) (k x : String),
      x ∈ lookupD (l.foldl entryStep acc) k ↔
        x ∈ lookupD acc k ∨ ∃ e ∈ l, e.1 = x ∧ k ∈ e.2 := by
  induction l with
  | nil => simp
  | cons e l ih =>
      intro acc k x
      simp only [List.foldl_cons]
      rw [ih]
      unfold entryStep
      rw [mem_lookupD_ownersFold]
      simp only [List.mem_cons]
      constructor
      · rintro ((hx | ⟨hk, rfl⟩) | ⟨e', he', hx, hk⟩)
        · exact Or.inl hx
        · exact Or.inr ⟨e, Or.inl rfl, rfl, hk⟩
        · exact Or.inr ⟨e', Or.inr he', hx, hk⟩
      · rintro (hx | ⟨e', (rfl | he'), hx, hk⟩)
        · exact Or.inl (Or.inl hx)
        · exact Or.inl (Or.inr ⟨hk, hx.symm⟩)
        · exact Or.inr ⟨e', he', hx, hk⟩

theorem mem_keys_outerFold (l : List (String × List String)) :
    ∀ (acc : List (String × List String)) (k : String),
      k ∈ (l.foldl entryStep acc).map Prod.fst ↔
        k ∈ acc.map Prod.fst ∨ ∃ e ∈ l, k ∈ e.2 := by
  induction l with
  | nil => simp
  | cons e l ih =>
      intro acc k
      simp only [List.foldl_cons]
      rw [ih]
      unfold entryStep
      rw [mem_keys_ownersFold]
      simp only [List.mem_cons]
      constructor
      · rintro ((hk | hk) | ⟨e', he', hk⟩)
        · exact Or.inl hk
        · exact Or.inr ⟨e, Or.inl rfl, hk⟩
        · exact Or.inr ⟨e', Or.inr he', hk⟩
      · rintro (hk | ⟨e', (rfl | he'), hk⟩)
        · exact Or.inl (Or.inl hk)
        · exact Or.inl (Or.inr hk)
        · exact Or.inr ⟨e', he', hk⟩

theorem nodup_keys_outerFold (l : List (String × List String)) :
    ∀ acc : List (String × List String), (acc.map Prod.fst).Nodup →
      ((l.foldl entryStep acc).map Prod.fst).Nodup := by
  induction l with
  | nil => exact fun acc h => h
  | cons e l ih =>
      intro acc hacc
      simp only [List.foldl_cons]
      exact ih _ (nodup_keys_ownersFold _ _ _ hacc)

theorem mem_lookupD_ownerFilesMap (l : List (String × List String)) (k x : String) :
    x ∈ lookupD (ownerFilesMap l) k ↔ ∃ e ∈ l, e.1 = x ∧ k ∈ e.2 := by
  unfold ownerFilesMap
  rw [mem_lookupD_outerFold]
  simp [lookupD]

theorem mem_keys_ownerFilesMap (l : List (String × List String)) (k : String) :
    k ∈ (ownerFilesMap l).map Prod.fst ↔ ∃ e ∈ l, k ∈ e.2 := by
  unfold ownerFilesMap
  rw [mem_keys_outerFold]
  simp

theorem nodup_keys_ownerFilesMap (l : List (String × List String)) :
    ((ownerFilesMap l).map Prod.fst).Nodup :=
  nodup_keys_outerFold l [] (by simp)

theorem mem_lookupD_pipeline (rs : List Rule) (files : List String) (k x : String) :
    x ∈ lookupD (ownerFilesMap (fileOwnersMap rs files)) k ↔
      x ∈ files ∧ k ∈ matchedOwners rs x := by
  rw [mem_lookupD_ownerFilesMap]
  unfold fileOwnersMap
  constructor
  · rintro ⟨e, he, hx, hk⟩
    rw [List.mem_map] at he
    obtain ⟨f, hf, rfl⟩ := he
    subst hx
    exact ⟨hf, hk⟩
  · rintro ⟨hx, hk⟩
    exact ⟨(x, matchedOwners rs x), List.mem_map_of_mem _ hx, rfl, hk⟩

theorem mem_keys_pipeline (rs : List Rule) (files : List String) (k : String) :
    k ∈ (ownerFilesMap (fileOwnersMap rs files)).map Prod.fst ↔
      ∃ f ∈ files, k ∈ matchedOwners rs f := by
  rw [mem_keys_ownerFilesMap]
  unfold fileOwnersMap
  constructor
  · rintro ⟨e, he, hk⟩
    rw [List.mem_map] at he
    obtain ⟨f, hf, rfl⟩ := he
    exact ⟨f, hf, hk⟩
  · rintro ⟨f, hf, hk⟩
    exact ⟨(f, matchedOwners rs f), List.mem_map_of_mem _ hf, hk⟩

/-! ## A path with no owners leaves the aggregation untouched -/

theorem outerFold_filter (rs : List Rule) (p : String) (hp : matchedOwners rs p = [])
    (files : List String) :
    ∀ acc : List (String × List String),
      (fileOwnersMap rs files).foldl entryStep acc =
        (fileOwnersMap rs (files.filter (fun q => q != p))).foldl entryStep acc := by
  induction files with
  | nil => intro acc; rfl
  | cons f rest ih =>
      intro acc
      by_cases h : f = p
      · subst h
        simp only [fileOwnersMap, List.map_cons, List.foldl_cons, List.filter_cons,
          bne_self_eq_false, Bool.false_eq_true, if_false]
        have hstep : entryStep acc (f, matchedOwners rs f) = acc := by
          unfold entryStep
          simp [hp]
        rw [hstep]
        exact ih acc
      · have hbne : (f != p) = true := by simp [bne_iff_ne, h]
        simp only [fileOwnersMap, List.map_cons, List.foldl_cons, List.filter_cons, hbne,
          if_true]
        exact ih _

/-- If the matcher yields no owners for `p` (no rule matched, or the matched
rule has an empty owner list), the owner→files map — and hence the printed
report — is the same as if `p` had not been a changed path at all. -/
theorem ownerFilesMap_filter (rs : List Rule) (p : String)
    (hp : matchedOwners rs p = []) (files : List String) :
    ownerFilesMap (fileOwnersMap rs files) =
      ownerFilesMap (fileOwnersMap rs (files.filter (fun q => q != p))) :=
  outerFold_filter rs p hp files []

/-! ## Last-match-wins characterisation of `rulesetMatch` -/

theorem rulesetMatch_foldl_eq_find (path : String) (rs : List Rule) :
    ∀ acc : Option Rule,
      rs.foldl (fun a r => if patMatch r.pattern path then some r else a) acc =
        (rs.reverse.find? (fun r => patMatch r.pattern path)).or acc := by
  induction rs with
  | nil => intro acc; simp
  | cons r rest ih =>
      intro acc
      simp only [List.foldl_cons, List.reverse_cons]
      rw [ih, List.find?_append, Option.or_assoc]
      congr 1
      by_cases h : patMatch r.pattern path <;> simp [h]

/-- `rulesetMatch` returns exactly the last rule (in declared order) whose
pattern matches the path: the first match of the reversed rule list. -/
theorem rulesetMatch_eq_find_reverse (rs : List Rule) (path : String) :
    rulesetMatch rs path = rs.reverse.find? (fun r => patMatch r.pattern path) := by
  unfold rulesetMatch
  rw [rulesetMatch_foldl_eq_find]
  cases rs.reverse.find? (fun r => patMatch r.pattern path) <;> rfl

/-! ## Control-flow lemmas about `run` -/

theorem run_mergeBase_empty :
    ∀ env : Env, env.mergeBase = .ok [] → run env = fatal := by
  rintro ⟨rsF, roF, hdF, bmF, bMF, mrF, mcF, ccF, mbF, btF, ctF, dfF, ptF⟩ h
  dsimp only at h
  subst h
  rcases rsF with e | rs
  · rfl
  rcases roF with e | u
  · rfl
  rcases hdF with e | isB
  · rfl
  cases isB
  · rfl
  unfold run
  rcases hsel : selectMainline bmF bMF with e | u
  · simp [hsel]
  rcases mrF with e | u
  · simp [hsel]
  rcases mcF with e | u
  · simp [hsel]
  rcases ccF with e | u
  · simp [hsel]
  simp [hsel]

theorem run_selectMainline_error :
    ∀ (env : Env) (e : GitErr),
      selectMainline env.branchMain env.branchMaster = .error e → run env = fatal := by
  rintro ⟨rsF, roF, hdF, bmF, bMF, mrF, mcF, ccF, mbF, btF, ctF, dfF, ptF⟩ e h
  dsimp only at h
  rcases rsF with er | rs
  · rfl
  rcases roF with er | u
  · rfl
  rcases hdF with er | isB
  · rfl
  cases isB
  · rfl
  unfold run
  simp [h]

/-! ## Claim theorems -/

/-- C6: if the ancestry graph yields zero common ancestors the run fails
fatally (exit code 1) and prints no report, not even a partial one; if it
yields one or more common ancestors (and the run reached the merge-base
step), the single commit used is the first of the returned list. -/
theorem c6_zero_or_many_merge_bases (env : Env) :
    (env.mergeBase = .ok [] → run env = fatal) ∧
    (∀ (rs : List Rule) (base : Nat) (bs : List Nat),
      env.ruleset = .ok rs → env.repoOpen = .ok () → env.headRef = .ok true →
      selectMainline env.branchMain env.branchMaster = .ok () →
      env.mainRef = .ok () → env.mainCommit = .ok () → env.currentCommit = .ok () →
      env.mergeBase = .ok (base :: bs) →
      (run env).selectedBase = some base) := by
  constructor
  · exact run_mergeBase_empty env
  · rintro rs base bs hrs hro hhd hsel hmr hmc hcc hmb
    rcases env with ⟨rsF, roF, hdF, bmF, bMF, mrF, mcF, ccF, mbF, btF, ctF, dfF, ptF⟩
    dsimp only at hrs hro hhd hsel hmr hmc hcc hmb
    subst hrs; subst hro; subst hhd; subst hmr; subst hmc; subst hcc; subst hmb
    unfold run
    rw [hsel]
    rcases btF with e | u
    · rfl
    rcases ctF with e | u
    · rfl
    rcases dfF with e | u
    · rfl
    rcases ptF with e | pt
    · rfl
    rfl

/-- C7: mainline selection tries `main` first — when `main` is found the
`master` lookup result is irrelevant to the whole run — and falls back to
`master` only on branch-not-found; if neither lookup yields a branch the run
terminates fatally with exit code 1 before any diff work (no report, no base
commit, and the diff/patch outcomes are irrelevant). -/
theorem c7_mainline_main_then_master (env : Env) :
    (env.branchMain = .ok () →
      ∀ m : Except GitErr Unit, run {env with branchMaster := m} = run env) ∧
    (∀ e : GitErr, env.branchMain = .error GitErr.branchNotFound →
      env.branchMaster = .error e →
      run env = fatal ∧
        ∀ (d : Except Nat Unit) (pa : Except Nat (List FilePatch)),
          run {env with diff := d, patch := pa} = fatal) := by
  constructor
  · intro h m
    rcases env with ⟨rsF, roF, hdF, bmF, bMF, mrF, mcF, ccF, mbF, btF, ctF, dfF, ptF⟩
    dsimp only at h
    subst h
    rcases rsF with e | rs
    · rfl
    rcases roF with e | u
    · rfl
    rcases hdF with e | isB
    · rfl
    cases isB
    · rfl
    rfl
  · intro e hmain hmaster
    have hsel : selectMainline env.branchMain env.branchMaster = .error e := by
      rw [hmain, hmaster]; rfl
    refine ⟨run_selectMainline_error env e hsel, fun d pa => ?_⟩
    have hsel' : selectMainline (Env.branchMain {env with diff := d, patch := pa})
        (Env.branchMaster {env with diff := d, patch := pa}) = .error e := hsel
    exact run_selectMainline_error _ e hsel'

/-- C10: if looking up branch `main` fails with any error other than
branch-not-found, the run terminates fatally with exit code 1 and the
`master` lookup result is never consulted (the run's outcome is independent
of it). -/
theorem c10_main_lookup_other_error (env : Env) (n : Nat)
    (h : env.branchMain = .error (GitErr.other n)) :
    run env = fatal ∧
      ∀ m : Except GitErr Unit, run {env with branchMaster := m} = run env := by
  have hsel : selectMainline env.branchMain env.branchMaster = .error (GitErr.other n) := by
    rw [h]; rfl
  refine ⟨run_selectMainline_error env _ hsel, fun m => ?_⟩
  rcases env with ⟨rsF, roF, hdF, bmF, bMF, mrF, mcF, ccF, mbF, btF, ctF, dfF, ptF⟩
  dsimp only at h
  subst h
  rcases rsF with e | rs
  · rfl
  rcases roF with e | u
  · rfl
  rcases hdF with e | isB
  · rfl
  cases isB
  · rfl
  rfl

/-- C1: a changed path that matches no rule does not abort the run (exit
code stays 0), contributes to no owner's file list, and the final report is
exactly the report of the remaining changed paths (so the path appears
nowhere in it and every other path is processed normally). -/
theorem c1_unmatched_path_is_skipped (env : Env) (rs : List Rule)
    (patches : List FilePatch) (p : String) (base : Nat) (bs : List Nat)
    (hrs : env.ruleset = .ok rs) (hro : env.repoOpen = .ok ())
    (hhd : env.headRef = .ok true)
    (hsel : selectMainline env.branchMain env.branchMaster = .ok ())
    (hmr : env.mainRef = .ok ()) (hmc : env.mainCommit = .ok ())
    (hcc : env.currentCommit = .ok ()) (hmb : env.mergeBase = .ok (base :: bs))
    (hbt : env.baseTree = .ok ()) (hct : env.currentTree = .ok ())
    (hdf : env.diff = .ok ()) (hpt : env.patch = .ok patches)
    (hm : rulesetMatch rs p = none) :
    (run env).exitCode = 0 ∧
    (∀ o, p ∉ lookupD (ownerFilesMap (fileOwnersMap rs (changedPaths patches))) o) ∧
    (run env).report =
      printReport (ownerFilesMap
        (fileOwnersMap rs ((changedPaths patches).filter (fun q => q != p)))) := by
  have hmo : matchedOwners rs p = [] := by
    unfold matchedOwners
    rw [hm]
  have hrun : run env =
      ⟨0, printReport (ownerFilesMap (fileOwnersMap rs (changedPaths patches))),
        some base⟩ := by
    rcases env with ⟨rsF, roF, hdF, bmF, bMF, mrF, mcF, ccF, mbF, btF, ctF, dfF, ptF⟩
    dsimp only at hrs hro hhd hsel hmr hmc hcc hmb hbt hct hdf hpt
    subst hrs; subst hro; subst hhd; subst hmr; subst hmc; subst hcc; subst hmb
    subst hbt; subst hct; subst hdf; subst hpt
    unfold run
    rw [hsel]
    rfl
  refine ⟨by rw [hrun], fun o hmem => ?_, ?_⟩
  · rw [mem_lookupD_pipeline] at hmem
    rw [hmo] at hmem
    exact absurd hmem.2 (List.not_mem_nil o)
  · rw [hrun]
    exact congrArg printReport (ownerFilesMap_filter rs p hmo (changedPaths patches))

/-- C2 (counterexample): the aggregation/printing step (`main.go` lines
128-141) applied to the same `fileOwners` map content — the same ruleset
`[* @a]` and the same changed-path set `{a.txt, b.txt}` — in two enumeration
orders that Go's randomized map iteration both permits produces two different
outputs, and in the second output the owner's paths are not in lexicographic
order; so two runs on the same inputs need not print identical reports. -/
theorem c2_map_order_leaks_into_report :
    (fileOwnersMap [⟨"*", ["@a"]⟩] ["a.txt", "b.txt"]).Perm
        (fileOwnersMap [⟨"*", ["@a"]⟩] ["b.txt", "a.txt"]) ∧
    printReport (ownerFilesMap (fileOwnersMap [⟨"*", ["@a"]⟩] ["a.txt", "b.txt"])) ≠
      printReport (ownerFilesMap (fileOwnersMap [⟨"*", ["@a"]⟩] ["b.txt", "a.txt"])) := by
  decide

/-- C2 (amended): independent of the order in which the `fileOwners` map is
enumerated, the report CONTENT is deterministic — the set of owners and, for
each owner, the set of its listed paths agree across any two enumeration
orders, no owner key repeats, and each owner's printed path list is free of
duplicates; only the order of lines may differ between runs. -/
theorem c2_report_content_deterministic (l1 l2 : List (String × List String))
    (h : l1.Perm l2) :
    (∀ o f, f ∈ lookupD (ownerFilesMap l1) o ↔ f ∈ lookupD (ownerFilesMap l2) o) ∧
    (∀ o, o ∈ (ownerFilesMap l1).map Prod.fst ↔ o ∈ (ownerFilesMap l2).map Prod.fst) ∧
    ((ownerFilesMap l1).map Prod.fst).Nodup ∧
    (∀ o, (uniq (lookupD (ownerFilesMap l1) o)).Nodup) := by
  refine ⟨fun o f => ?_, fun o => ?_, nodup_keys_ownerFilesMap l1,
    fun o => nodup_uniq _⟩
  · rw [mem_lookupD_ownerFilesMap, mem_lookupD_ownerFilesMap]
    constructor
    · rintro ⟨e, he, hx⟩
      exact ⟨e, h.mem_iff.mp he, hx⟩
    · rintro ⟨e, he, hx⟩
      exact ⟨e, h.mem_iff.mpr he, hx⟩
  · rw [mem_keys_ownerFilesMap, mem_keys_ownerFilesMap]
    constructor
    · rintro ⟨e, he, hx⟩
      exact ⟨e, h.mem_iff.mp he, hx⟩
    · rintro ⟨e, he, hx⟩
      exact ⟨e, h.mem_iff.mpr he, hx⟩

/-- C3: matching returns the owners of the LAST rule (in declared file
order) whose pattern matches the path — the first match of the reversed rule
list — not the first match and not the most specific match: for
`[(*, A), (*.go, B)]` the path `main.go` yields owner `B`, and a later,
less specific rule overrides an earlier, more specific one. -/
theorem c3_last_match_wins (rs : List Rule) (path : String) :
    rulesetMatch rs path = rs.reverse.find? (fun r => patMatch r.pattern path) ∧
    rulesetMatch [⟨"*", ["A"]⟩, ⟨"*.go", ["B"]⟩] "main.go" = some ⟨"*.go", ["B"]⟩ ∧
    rulesetMatch [⟨"/src/legacy/", ["@legacy-team"]⟩, ⟨"/src/", ["@core-team"]⟩]
        "src/legacy/old.go" = some ⟨"/src/", ["@core-team"]⟩ :=
  ⟨rulesetMatch_eq_find_reverse rs path, by decide, by decide⟩

/-- C4: a pattern anchored by a leading slash, `/docs/`, matches
`docs/readme.md` but not `sub/docs/readme.md`, while the unanchored pattern
`docs/` matches both paths (any depth). -/
theorem c4_anchoring :
    patMatch "/docs/" "docs/readme.md" = true ∧
    patMatch "/docs/" "sub/docs/readme.md" = false ∧
    patMatch "docs/" "docs/readme.md" = true ∧
    patMatch "docs/" "sub/docs/readme.md" = true := by
  decide

/-- C5: the changed-path set contains exactly the paths occurring as the old
or the new file of some diff entry — one path for a plain modification, the
new path for an add, the old path for a delete, both paths for a rename —
and it is a set: no path appears twice. -/
theorem c5_changed_path_set (patches : List FilePatch) (p : String) :
    (p ∈ changedPaths patches ↔
      ∃ fp ∈ patches, fp.fromFile = some p ∨ fp.toFile = some p) ∧
    (changedPaths patches).Nodup :=
  ⟨mem_changedPaths patches p, nodup_changedPaths patches⟩

/-- C8: in the final report no owner key appears twice, each owner's printed
path list has no duplicate entries, and the owner set is exactly the set of
owners matched by at least one changed path. -/
theorem c8_report_shape (rs : List Rule) (files : List String) :
    ((ownerFilesMap (fileOwnersMap rs files)).map Prod.fst).Nodup ∧
    (∀ o, (uniq (lookupD (ownerFilesMap (fileOwnersMap rs files)) o)).Nodup) ∧
    (∀ o, o ∈ (ownerFilesMap (fileOwnersMap rs files)).map Prod.fst ↔
      ∃ f ∈ files, o ∈ matchedOwners rs f) :=
  ⟨nodup_keys_ownerFilesMap _, fun o => nodup_uniq _,
    fun o => mem_keys_pipeline rs files o⟩

/-- C9: a changed path whose last matching rule has an empty owner list
contributes to no owner bucket, and the report is exactly the report of the
remaining changed paths (the path appears nowhere; the rest are processed
normally). -/
theorem c9_empty_owner_list_is_skipped (rs : List Rule) (files : List String)
    (p : String) (r : Rule) (hm : rulesetMatch rs p = some r)
    (ho : r.owners = []) :
    (∀ o, p ∉ lookupD (ownerFilesMap (fileOwnersMap rs files)) o) ∧
    printReport (ownerFilesMap (fileOwnersMap rs files)) =
      printReport (ownerFilesMap
        (fileOwnersMap rs (files.filter (fun q => q != p)))) := by
  have hmo : matchedOwners rs p = [] := by
    unfold matchedOwners
    rw [hm]
    exact ho
  refine ⟨fun o hmem => ?_, ?_⟩
  · rw [mem_lookupD_pipeline] at hmem
    rw [hmo] at hmem
    exact absurd hmem.2 (List.not_mem_nil o)
  · exact congrArg printReport (ownerFilesMap_filter rs p hmo files)

/-! ## Concrete witness environments and witnesses -/

/-- Environment for the C1 witness: ruleset `[*.go @a]`, one modified
unmatched file `README.md` and one modified matched file `x.go`. -/
def envC1 : Env :=
  ⟨.ok [⟨"*.go", ["@a"]⟩], .ok (), .ok true, .ok (), .ok (), .ok (), .ok (), .ok (),
    .ok [5], .ok (), .ok (), .ok (),
    .ok [⟨some "README.md", some "README.md"⟩, ⟨some "x.go", some "x.go"⟩]⟩

/-- Witness for C1 at a concrete environment. -/
theorem c1_witness :
    (run envC1).exitCode = 0 ∧
    "README.md" ∉ lookupD (ownerFilesMap (fileOwnersMap [⟨"*.go", ["@a"]⟩]
      (changedPaths
        [⟨some "README.md", some "README.md"⟩, ⟨some "x.go", some "x.go"⟩]))) "@a" ∧
    (run envC1).report = printReport (ownerFilesMap (fileOwnersMap [⟨"*.go", ["@a"]⟩]
      ((changedPaths
        [⟨some "README.md", some "README.md"⟩, ⟨some "x.go", some "x.go"⟩]).filter
          (fun q => q != "README.md")))) :=
  have h := c1_unmatched_path_is_skipped envC1 [⟨"*.go", ["@a"]⟩]
    [⟨some "README.md", some "README.md"⟩, ⟨some "x.go", some "x.go"⟩] "README.md" 5 []
    rfl rfl rfl rfl rfl rfl rfl rfl rfl rfl rfl rfl (by decide)
  ⟨h.1, h.2.1 "@a", h.2.2⟩

/-- Witness for the amended C2 at concrete permuted map contents. -/
theorem c2_amended_witness :
    ("a.txt" ∈ lookupD (ownerFilesMap [("b.txt", ["@a"]), ("a.txt", ["@a"])]) "@a" ↔
      "a.txt" ∈ lookupD (ownerFilesMap [("a.txt", ["@a"]), ("b.txt", ["@a"])]) "@a") ∧
    ((ownerFilesMap [("b.txt", ["@a"]), ("a.txt", ["@a"])]).map Prod.fst).Nodup :=
  have h := c2_report_content_deterministic [("b.txt", ["@a"]), ("a.txt", ["@a"])]
    [("a.txt", ["@a"]), ("b.txt", ["@a"])] (by decide)
  ⟨h.1 "@a" "a.txt", h.2.2.1⟩

/-- Environment for the C6 witness: merge base yields no common ancestor. -/
def envC6Empty : Env :=
  ⟨.ok [], .ok (), .ok true, .ok (), .ok (), .ok (), .ok (), .ok (),
    .ok [], .ok (), .ok (), .ok (), .ok []⟩

/-- Environment for the C6 witness: merge base yields two common ancestors. -/
def envC6Two : Env :=
  ⟨.ok [], .ok (), .ok true, .ok (), .ok (), .ok (), .ok (), .ok (),
    .ok [3, 4], .ok (), .ok (), .ok (), .ok []⟩

/-- Witness for C6: zero ancestors is fatal with no report; with two
ancestors the first one is selected. -/
theorem c6_witness :
    run envC6Empty = fatal ∧ (run envC6Two).selectedBase = some 3 :=
  ⟨(c6_zero_or_many_merge_bases envC6Empty).1 rfl,
    (c6_zero_or_many_merge_bases envC6Two).2 [] 3 [4] rfl rfl rfl rfl rfl rfl rfl rfl⟩

/-- Environment for the C7 witness: neither `main` nor `master` exists. -/
def envC7NotFound : Env :=
  ⟨.ok [], .ok (), .ok true, .error GitErr.branchNotFound,
    .error GitErr.branchNotFound, .ok (), .ok (), .ok (), .ok [1], .ok (), .ok (),
    .ok (), .ok []⟩

/-- Environment for the C7 witness: `main` exists, `master` lookup errors. -/
def envC7MainOk : Env :=
  ⟨.ok [], .ok (), .ok true, .ok (), .error (GitErr.other 9),
    .ok (), .ok (), .ok (), .ok [1], .ok (), .ok (), .ok (), .ok []⟩

/-- Witness for C7: the `master` outcome is irrelevant once `main` is found,
and a run with neither branch is fatal. -/
theorem c7_witness :
    run {envC7MainOk with branchMaster := .ok ()} = run envC7MainOk ∧
    run envC7NotFound = fatal :=
  ⟨(c7_mainline_main_then_master envC7MainOk).1 rfl (.ok ()),
    ((c7_mainline_main_then_master envC7NotFound).2 GitErr.branchNotFound rfl rfl).1⟩

/-- Witness for C9 at a concrete ruleset whose matching rule for `a.md`
has an empty owner list. -/
theorem c9_witness :
    "a.md" ∉ lookupD (ownerFilesMap (fileOwnersMap [⟨"*.md", []⟩] ["a.md", "b.md"])) "@x" ∧
    printReport (ownerFilesMap (fileOwnersMap [⟨"*.md", []⟩] ["a.md", "b.md"])) =
      printReport (ownerFilesMap (fileOwnersMap [⟨"*.md", []⟩]
        (["a.md", "b.md"].filter (fun q => q != "a.md")))) :=
  have h := c9_empty_owner_list_is_skipped [⟨"*.md", []⟩] ["a.md", "b.md"] "a.md"
    ⟨"*.md", []⟩ (by decide) rfl
  ⟨h.1 "@x", h.2⟩

/-- Environment for the C10 witness: the `main` lookup fails with an error
that is not branch-not-found. -/
def envC10 : Env :=
  ⟨.ok [], .ok (), .ok true, .error (GitErr.other 2), .ok (),
    .ok (), .ok (), .ok (), .ok [1], .ok (), .ok (), .ok (), .ok []⟩

/-- Witness for C10: fatal exit, and the `master` lookup outcome does not
influence the run. -/
theorem c10_witness :
    run envC10 = fatal ∧
    run {envC10 with branchMaster := .error GitErr.branchNotFound} = run envC10 :=
  have h := c10_main_lookup_other_error envC10 2 rfl
  ⟨h.1, h.2 (.error GitErr.branchNotFound)⟩

end CodeownerReport
